import Mathlib

/-!
A shallow embedding of the GreenGrow Manager inventory and sales ledger
(`inventory_manager.py` together with the row types of `models.py`), and
proofs of the specified properties of its operations.

Modelling conventions:
* Each SQLAlchemy row type becomes a structure; `Float` money columns are
  modelled as exact rationals (`Rat`), integer quantities as `Int` (Python
  integers), timestamps as `Nat` (a `DateTime` is a number of seconds,
  a `date` is a number of days; midnight of day `d` is `d * dayLength`).
* The database session becomes an explicit `DB` state threaded through the
  operations.  Primary keys are assigned from per-table counters, mirroring
  the autoincrement columns.  A SQLAlchemy `query(...).all()` without
  `order_by` enumerates rows in insertion (rowid) order, so a table is a
  `List` in insertion order and `ORDER BY` is a stable sort
  (`List.insertionSort`, which keeps tied rows in rowid order exactly as
  SQLite enumerates them).
* An ORM attribute assignment `row.x = v` updates the unique row with that
  primary key, so it becomes a `map` over the table replacing the row(s)
  whose `id` matches.  This also reproduces SQLAlchemy identity-map
  aliasing: two query results holding the same primary key are the same
  mutable object, so successive assignments through either handle hit the
  same row.
* Operations that return `None` on a failed precondition return the state
  unchanged together with `none`, since the Python code returns before
  performing any mutation.
-/

namespace GreenGrow

/-- Row of the `tree_types` table (`models.TreeType`). -/
structure TreeType where
  id : Nat
  name : String
  description : Option String
  base_unit_price : Rat
deriving DecidableEq

/-- Row of the `locations` table (`models.Location`). -/
structure Location where
  id : Nat
  name : String
  description : Option String
deriving DecidableEq

/-- Row of the `stock` table (`models.Stock`): one lot of one tree type at
one location. -/
structure Stock where
  id : Nat
  tree_type_id : Nat
  location_id : Nat
  quantity : Int
  date_added : Nat
  cost_per_seedling : Rat
deriving DecidableEq

/-- Row of the `transactions` table (`models.Transaction`). -/
structure Transaction where
  id : Nat
  tree_type_id : Nat
  quantity_sold : Int
  unit_sale_price_at_time_of_sale : Rat
  total_amount : Rat
  transaction_date : Nat
deriving DecidableEq

/-- The persistent store: the four tables in insertion order plus the
autoincrement counters for the two tables the ledger operations insert
into. -/
structure DB where
  tree_types : List TreeType
  locations : List Location
  stocks : List Stock
  transactions : List Transaction
  next_stock_id : Nat
  next_transaction_id : Nat
deriving DecidableEq

/-- Length of a day in the timestamp unit (seconds). -/
def dayLength : Nat := 86400

/-- Midnight of day `d`: conversion of a `date` to a `DateTime`, as used by
the SQL comparison of a timestamp column against a date value. -/
def dateToDateTime (d : Nat) : Nat := d * dayLength

/-- `get_tree_type_by_id`: `query(TreeType).filter(TreeType.id == id).first()`. -/
def get_tree_type_by_id (db : DB) (tree_type_id : Nat) : Option TreeType :=
  db.tree_types.find? (fun t => t.id == tree_type_id)

/-- `get_location_by_id`. -/
def get_location_by_id (db : DB) (location_id : Nat) : Option Location :=
  db.locations.find? (fun l => l.id == location_id)

/-- `get_stock_by_id`: `query(Stock).filter(Stock.id == stock_id).first()`. -/
def get_stock_by_id (db : DB) (stock_id : Nat) : Option Stock :=
  db.stocks.find? (fun s => s.id == stock_id)

/-- `add_stock_entry`: inserts one new `Stock` row and returns it.  The new
row's `date_added` column is filled by the `datetime.datetime.now` default,
passed here as `now`. -/
def add_stock_entry (db : DB) (tree_type_id location_id : Nat) (quantity : Int)
    (cost_per_seedling : Rat) (now : Nat) : DB × Stock :=
  let db_stock : Stock :=
    { id := db.next_stock_id
      tree_type_id := tree_type_id
      location_id := location_id
      quantity := quantity
      date_added := now
      cost_per_seedling := cost_per_seedling }
  ({ db with stocks := db.stocks ++ [db_stock],
             next_stock_id := db.next_stock_id + 1 }, db_stock)

/-- `get_all_stock_entries`: the Python guards are `if tree_type_id:` and
`if location_id:`, so a filter argument is applied only when it is both
present (`some`) and truthy (nonzero). -/
def get_all_stock_entries (db : DB) (tree_type_id location_id : Option Nat) :
    List Stock :=
  let q := db.stocks
  let q := match tree_type_id with
    | some t => if t != 0 then q.filter (fun s => s.tree_type_id == t) else q
    | none => q
  match location_id with
  | some l => if l != 0 then q.filter (fun s => s.location_id == l) else q
  | none => q

/-- `update_stock_quantity`: sets the quantity of the row with the given
primary key, if it exists. -/
def update_stock_quantity (db : DB) (stock_id : Nat) (new_quantity : Int) :
    DB × Option Stock :=
  match get_stock_by_id db stock_id with
  | none => (db, none)
  | some db_stock =>
    let stocks :=
      db.stocks.map (fun s =>
        if s.id == stock_id then { s with quantity := new_quantity } else s)
    ({ db with stocks := stocks }, some { db_stock with quantity := new_quantity })

/-- Re-read (`db.refresh`) the row with primary key `sid` from the table;
the fallback is never reached on the paths where it is used, because the
mutations preserve every row's `id`. -/
def refreshById (stocks : List Stock) (sid : Nat) (fallback : Stock) : Stock :=
  (stocks.find? (fun s => s.id == sid)).getD fallback

/-- The ORM assignment `row.quantity += d` where `row` is the queried
object with primary key `stock_id`: the row with that key is replaced, all
other rows are untouched. -/
def addQuantityById (stocks : List Stock) (stock_id : Nat) (d : Int) : List Stock :=
  stocks.map (fun s =>
    if s.id == stock_id then { s with quantity := s.quantity + d } else s)

/-- The ORM assignment `row.quantity -= d` on the row with primary key
`stock_id`. -/
def subQuantityById (stocks : List Stock) (stock_id : Nat) (d : Int) : List Stock :=
  stocks.map (fun s =>
    if s.id == stock_id then { s with quantity := s.quantity - d } else s)

/-- The destination query of `move_stock_quantity`:
`query(Stock).filter(Stock.tree_type_id == ..., Stock.location_id == ...)
.first()`. -/
def destLotQuery (db : DB) (tt_id lid : Nat) : Option Stock :=
  db.stocks.find? (fun s => s.tree_type_id == tt_id && s.location_id == lid)

/-- `move_stock_quantity`: moves `quantity_to_move` seedlings from the lot
`from_stock_id` to the location `to_location_id`.  Returns `none` (leaving
the store untouched) when the source lot does not exist or holds fewer than
`quantity_to_move`.  Otherwise it increments the first existing lot with the
same tree type at the destination — which, through the ORM identity map, is
the source lot itself when the query matches it — or inserts a fresh lot
carrying over the source's unit cost, and then decrements the source row. -/
def move_stock_quantity (db : DB) (from_stock_id to_location_id : Nat)
    (quantity_to_move : Int) (now : Nat) : DB × Option (Stock × Stock) :=
  match get_stock_by_id db from_stock_id with
  | none => (db, none)
  | some from_stock =>
    if from_stock.quantity < quantity_to_move then (db, none)
    else
      match destLotQuery db from_stock.tree_type_id to_location_id with
      | some existing_to_stock =>
        let stocks2 := subQuantityById
          (addQuantityById db.stocks existing_to_stock.id quantity_to_move)
          from_stock_id quantity_to_move
        let db2 := { db with stocks := stocks2 }
        (db2, some (refreshById stocks2 from_stock_id from_stock,
                    refreshById stocks2 existing_to_stock.id existing_to_stock))
      | none =>
        let to_stock : Stock :=
          { id := db.next_stock_id
            tree_type_id := from_stock.tree_type_id
            location_id := to_location_id
            quantity := quantity_to_move
            date_added := now
            cost_per_seedling := from_stock.cost_per_seedling }
        let stocks2 := subQuantityById db.stocks from_stock_id quantity_to_move
          ++ [to_stock]
        let db2 := { db with stocks := stocks2,
                             next_stock_id := db.next_stock_id + 1 }
        (db2, some (refreshById stocks2 from_stock_id from_stock, to_stock))

/-- The `available_stock_entries` query of `record_sale`:
`query(Stock).filter(Stock.tree_type_id == id, Stock.quantity > 0)
.order_by(Stock.date_added.asc()).all()`. -/
def availableStockEntries (db : DB) (tree_type_id : Nat) : List Stock :=
  (db.stocks.filter
      (fun s => s.tree_type_id == tree_type_id && 0 < s.quantity)).insertionSort
    (fun a b => a.date_added ≤ b.date_added)

/-- The total currently available quantity of a tree type, as computed by
`record_sale` (`sum(s.quantity for s in available_stock_entries)`). -/
def totalAvailableQuantity (db : DB) (tree_type_id : Nat) : Int :=
  ((availableStockEntries db tree_type_id).map (fun s => s.quantity)).sum

/-- The decrement loop of `record_sale`: walk the available lots in order,
draining each to zero until `remaining_to_sell` is exhausted; once it is,
the remaining lots are left untouched (the loop `break`s). -/
def consumeLots : Int → List Stock → List Stock
  | _, [] => []
  | remaining, s :: rest =>
    if remaining ≤ 0 then s :: rest
    else if remaining ≤ s.quantity then
      { s with quantity := s.quantity - remaining } :: consumeLots 0 rest
    else
      { s with quantity := 0 } :: consumeLots (remaining - s.quantity) rest

/-- Write the consumed lots back over the table: each row keeps its place,
a row whose primary key occurs among the updated rows takes the updated
value (ORM attribute assignment on the queried objects). -/
def overwriteById (base upd : List Stock) : List Stock :=
  base.map (fun s => (upd.find? (fun u => u.id == s.id)).getD s)

/-- `record_sale`: checks the tree type exists and the total available
quantity suffices, consumes lots oldest-first, and appends one `Transaction`
row priced at the tree type's current base price. -/
def record_sale (db : DB) (tree_type_id : Nat) (quantity_sold : Int) (now : Nat) :
    DB × Option Transaction :=
  match get_tree_type_by_id db tree_type_id with
  | none => (db, none)
  | some tree_type =>
    let available := availableStockEntries db tree_type_id
    let total_available : Int := (available.map (fun s => s.quantity)).sum
    if total_available < quantity_sold then (db, none)
    else
      let consumed := consumeLots quantity_sold available
      let unit_sale_price := tree_type.base_unit_price
      let db_transaction : Transaction :=
        { id := db.next_transaction_id
          tree_type_id := tree_type_id
          quantity_sold := quantity_sold
          unit_sale_price_at_time_of_sale := unit_sale_price
          total_amount := unit_sale_price * (quantity_sold : Rat)
          transaction_date := now }
      ({ db with stocks := overwriteById db.stocks consumed,
                 transactions := db.transactions ++ [db_transaction],
                 next_transaction_id := db.next_transaction_id + 1 },
       some db_transaction)

/-- `get_all_transactions`: descending order by `transaction_date`, an
optional `start_date` lower bound (midnight of that day) and an optional
`end_date` upper bound of strictly before midnight of the following day. -/
def get_all_transactions (db : DB) (start_date end_date : Option Nat) :
    List Transaction :=
  let q := db.transactions.insertionSort
    (fun a b => b.transaction_date ≤ a.transaction_date)
  let q := match start_date with
    | some d => q.filter (fun t => dateToDateTime d ≤ t.transaction_date)
    | none => q
  match end_date with
  | some d => q.filter (fun t => t.transaction_date < dateToDateTime (d + 1))
  | none => q

/-- Total quantity of a tree type over all lots of a list. -/
def typeQtyL (l : List Stock) (tree_type_id : Nat) : Int :=
  ((l.filter (fun s => s.tree_type_id == tree_type_id)).map (fun s => s.quantity)).sum

/-- Total quantity of a tree type across all lots (all locations). -/
def typeQuantity (db : DB) (tree_type_id : Nat) : Int :=
  typeQtyL db.stocks tree_type_id

/-- Total quantity of a tree type at one location. -/
def locationTypeQuantity (db : DB) (tree_type_id location_id : Nat) : Int :=
  ((db.stocks.filter (fun s =>
      s.tree_type_id == tree_type_id && s.location_id == location_id)).map
    (fun s => s.quantity)).sum

/-- Well-formedness of a store as the relational engine guarantees it:
primary keys of the stock table are distinct and below the autoincrement
counter, and every lot's quantity is non-negative. -/
def WF (db : DB) : Prop :=
  (db.stocks.map (fun s => s.id)).Nodup ∧
  (∀ s ∈ db.stocks, s.id < db.next_stock_id) ∧
  (∀ s ∈ db.stocks, 0 ≤ s.quantity)

instance (db : DB) : Decidable (WF db) := by
  unfold WF; infer_instance

/-- The transaction row `record_sale` inserts on success. -/
def saleTransaction (db : DB) (tree_type_id : Nat) (quantity_sold : Int) (now : Nat)
    (tree_type : TreeType) : Transaction :=
  { id := db.next_transaction_id
    tree_type_id := tree_type_id
    quantity_sold := quantity_sold
    unit_sale_price_at_time_of_sale := tree_type.base_unit_price
    total_amount := tree_type.base_unit_price * (quantity_sold : Rat)
    transaction_date := now }

/-- Default row used only as the out-of-range fallback of `List.getD`. -/
def dummyStock : Stock :=
  { id := 0, tree_type_id := 0, location_id := 0, quantity := 0,
    date_added := 0, cost_per_seedling := 0 }

/-- One ledger operation performed through the command surface, under the
preconditions the CLI enforces before calling the engine: positive
quantities, non-negative costs and a non-negative target quantity for a
direct update.  The failing paths of `move_stock_quantity` and
`record_sale` are included (they leave the store unchanged). -/
inductive Step : DB → DB → Prop
  | add (db : DB) (tid lid : Nat) (q : Int) (c : Rat) (now : Nat)
      (hq : 0 < q) (hc : 0 ≤ c) :
      Step db (add_stock_entry db tid lid q c now).1
  | update (db : DB) (sid : Nat) (q : Int) (hq : 0 ≤ q) :
      Step db (update_stock_quantity db sid q).1
  | move (db : DB) (fid lid : Nat) (q : Int) (now : Nat) (hq : 0 < q) :
      Step db (move_stock_quantity db fid lid q now).1
  | sale (db : DB) (tid : Nat) (q : Int) (now : Nat) (hq : 0 < q) :
      Step db (record_sale db tid q now).1

/-- States reachable by any sequence of ledger operations. -/
def Reachable : DB → DB → Prop := Relation.ReflTransGen Step

/-- The conclusions of the FIFO sale property: on success, `record_sale`
appends exactly one transaction priced `unit price × quantity`, the tree
type's total drops by exactly the quantity sold, the lots are consumed in
ascending `date_added` order draining each to zero before the next one is
touched, and every stock row keeps its identity, never grows, and is
untouched unless it belongs to the sold tree type. -/
def RecordSaleFifoSpec (db : DB) (tid : Nat) (q : Int) (now : Nat) (tt : TreeType) : Prop :=
  ∃ tx : Transaction,
    (record_sale db tid q now).2 = some tx ∧
    (record_sale db tid q now).1.transactions = db.transactions ++ [tx] ∧
    tx.quantity_sold = q ∧
    tx.unit_sale_price_at_time_of_sale = tt.base_unit_price ∧
    tx.total_amount = tt.base_unit_price * (q : Rat) ∧
    typeQuantity (record_sale db tid q now).1 tid = typeQuantity db tid - q ∧
    (availableStockEntries db tid).Pairwise (fun a b => a.date_added ≤ b.date_added) ∧
    (∀ i j : Nat, i < j →
      ((consumeLots q (availableStockEntries db tid)).getD j dummyStock).quantity
          < ((availableStockEntries db tid).getD j dummyStock).quantity →
      ((consumeLots q (availableStockEntries db tid)).getD i dummyStock).quantity = 0) ∧
    (record_sale db tid q now).1.stocks
        = overwriteById db.stocks (consumeLots q (availableStockEntries db tid)) ∧
    (∀ t ∈ (record_sale db tid q now).1.stocks, ∃ s ∈ db.stocks,
      t.id = s.id ∧ t.tree_type_id = s.tree_type_id ∧ t.quantity ≤ s.quantity ∧
      (s.tree_type_id ≠ tid → t = s))

/-! ### Concrete stores used by the witnesses and counterexamples -/

/-- Example tree type: id 1, base price 5. -/
def oakType : TreeType := { id := 1, name := "Oak", description := none, base_unit_price := 5 }

/-- Example lot: 10 seedlings of type 1 at location 1, added on day 1. -/
def wLotA : Stock :=
  { id := 1, tree_type_id := 1, location_id := 1, quantity := 10,
    date_added := 1, cost_per_seedling := 0 }

/-- Example lot: 5 seedlings of type 1 at location 2, added on day 2. -/
def wLotB : Stock :=
  { id := 2, tree_type_id := 1, location_id := 2, quantity := 5,
    date_added := 2, cost_per_seedling := 0 }

/-- Example store with one tree type, two locations and two lots. -/
def wDB : DB :=
  { tree_types := [oakType]
    locations := [{ id := 1, name := "North", description := none },
                  { id := 2, name := "South", description := none }]
    stocks := [wLotA, wLotB]
    transactions := []
    next_stock_id := 3
    next_transaction_id := 1 }

/-- A lot that is the only lot of its type, sitting at location 1. -/
def selfLot : Stock :=
  { id := 1, tree_type_id := 1, location_id := 1, quantity := 5,
    date_added := 0, cost_per_seedling := 0 }

/-- Store exhibiting the self-transfer corner of `move_stock_quantity`. -/
def selfDB : DB :=
  { tree_types := [oakType]
    locations := [{ id := 1, name := "North", description := none }]
    stocks := [selfLot]
    transactions := []
    next_stock_id := 2
    next_transaction_id := 1 }

/-- A second self-transfer lot with different numbers. -/
def selfLot2 : Stock :=
  { id := 1, tree_type_id := 1, location_id := 1, quantity := 8,
    date_added := 0, cost_per_seedling := 0 }

/-- Second store exhibiting the self-transfer corner. -/
def selfDB2 : DB :=
  { tree_types := [oakType]
    locations := [{ id := 1, name := "North", description := none }]
    stocks := [selfLot2]
    transactions := []
    next_stock_id := 2
    next_transaction_id := 1 }

/-- Example transaction log: three sales on days 3, 5 and 4. -/
def wTxs : List Transaction :=
  [{ id := 1, tree_type_id := 1, quantity_sold := 2,
     unit_sale_price_at_time_of_sale := 5, total_amount := 10,
     transaction_date := dateToDateTime 3 + 50 },
   { id := 2, tree_type_id := 1, quantity_sold := 1,
     unit_sale_price_at_time_of_sale := 5, total_amount := 5,
     transaction_date := dateToDateTime 5 + 7 },
   { id := 3, tree_type_id := 1, quantity_sold := 1,
     unit_sale_price_at_time_of_sale := 5, total_amount := 5,
     transaction_date := dateToDateTime 4 }]

/-- Store with a transaction history. -/
def wDBT : DB :=
  { tree_types := [oakType]
    locations := []
    stocks := []
    transactions := wTxs
    next_stock_id := 1
    next_transaction_id := 4 }

/-! ### Generic list lemmas -/

lemma sum_map_add {α : Type} (l : List α) (g h : α → Int) :
    (l.map (fun a => g a + h a)).sum = (l.map g).sum + (l.map h).sum := by
  induction l with
  | nil => simp
  | cons a l ih => simp only [List.map_cons, List.sum_cons, ih]; ring

lemma sum_map_neg {α : Type} (l : List α) (g : α → Int) :
    (l.map (fun a => -(g a))).sum = -((l.map g).sum) := by
  induction l with
  | nil => simp
  | cons a l ih => simp only [List.map_cons, List.sum_cons, ih]; ring

lemma sum_map_filter_of_zero {α : Type} (l : List α) (g : α → Int) (p : α → Bool)
    (h : ∀ a ∈ l, p a = false → g a = 0) :
    (l.map g).sum = ((l.filter p).map g).sum := by
  induction l with
  | nil => simp
  | cons a l ih =>
    have ih' := ih (fun a ha => h a (List.mem_cons_of_mem _ ha))
    cases hp : p a with
    | true => simp only [List.filter_cons, hp, if_pos, List.map_cons, List.sum_cons, ih']
    | false =>
      have ha0 := h a (List.mem_cons_self a l) hp
      simp only [List.filter_cons, hp, List.map_cons, List.sum_cons, ih', ha0, Bool.false_eq_true,
        if_false, zero_add]

lemma forall₂_mem_right {α β : Type} {R : α → β → Prop} {l₁ : List α} {l₂ : List β}
    (h : List.Forall₂ R l₁ l₂) : ∀ b ∈ l₂, ∃ a ∈ l₁, R a b := by
  induction h with
  | nil => intro b hb; cases hb
  | cons hab h ih =>
    intro b hb
    rcases List.mem_cons.mp hb with rfl | hb
    · exact ⟨_, List.mem_cons_self _ _, hab⟩
    · obtain ⟨a, ha, hR⟩ := ih b hb
      exact ⟨a, List.mem_cons_of_mem _ ha, hR⟩

/-- Two rows of a table with distinct primary keys that share an id are the
same row. -/
lemma eq_of_mem_of_id_eq {l : List Stock} (hnd : (l.map (fun s => s.id)).Nodup)
    {a b : Stock} (ha : a ∈ l) (hb : b ∈ l) (hab : a.id = b.id) : a = b :=
  List.inj_on_of_nodup_map hnd ha hb hab

/-- `find?` by primary key commutes with a map that preserves primary keys. -/
lemma find?_id_map (f : Stock → Stock) (hf : ∀ s, (f s).id = s.id)
    (l : List Stock) (y : Nat) :
    (l.map f).find? (fun s => s.id == y) = (l.find? (fun s => s.id == y)).map f := by
  induction l with
  | nil => rfl
  | cons s l ih =>
    cases h : (s.id == y) with
    | true =>
      rw [List.map_cons, List.find?_cons_of_pos, List.find?_cons_of_pos]
      · rfl
      · exact h
      · rw [hf s]; exact h
    | false =>
      rw [List.map_cons, List.find?_cons_of_neg, List.find?_cons_of_neg]
      · exact ih
      · simp [h]
      · simp [hf s, h]

/-- A map that preserves primary keys leaves the table's key column
unchanged. -/
lemma map_id_of_id_preserving (f : Stock → Stock) (hf : ∀ s, (f s).id = s.id)
    (l : List Stock) :
    (l.map f).map (fun s => s.id) = l.map (fun s => s.id) := by
  rw [List.map_map]
  exact List.map_congr_left (fun s _ => hf s)

/-! ### Lemmas about the consumption loop of `record_sale` -/

lemma consumeLots_nonpos (r : Int) (l : List Stock) (h : r ≤ 0) :
    consumeLots r l = l := by
  cases l with
  | nil => rfl
  | cons s rest => simp [consumeLots, if_pos h]

lemma consumeLots_map_id (r : Int) (l : List Stock) :
    (consumeLots r l).map (fun s => s.id) = l.map (fun s => s.id) := by
  induction l generalizing r with
  | nil => rfl
  | cons s rest ih =>
    by_cases h1 : r ≤ 0
    · rw [consumeLots_nonpos _ _ h1]
    · rw [consumeLots, if_neg h1]
      by_cases h2 : r ≤ s.quantity
      · rw [if_pos h2]; simp [ih]
      · rw [if_neg h2]; simp [ih]

/-- Shape of the consumed list: each lot keeps its identity and foreign
keys, and its quantity only shrinks, staying non-negative. -/
lemma consumeLots_forall₂ (r : Int) (l : List Stock)
    (h : ∀ s ∈ l, 0 ≤ s.quantity) :
    List.Forall₂ (fun a b => b.id = a.id ∧ b.tree_type_id = a.tree_type_id ∧
      b.quantity ≤ a.quantity ∧ 0 ≤ b.quantity) l (consumeLots r l) := by
  induction l generalizing r with
  | nil => exact List.Forall₂.nil
  | cons s rest ih =>
    have hs := h s (List.mem_cons_self _ _)
    have hrest := fun a ha => h a (List.mem_cons_of_mem _ ha)
    by_cases h1 : r ≤ 0
    · rw [consumeLots_nonpos _ _ h1]
      exact List.forall₂_same.mpr (fun a ha => ⟨rfl, rfl, le_refl _, h a ha⟩)
    · rw [consumeLots, if_neg h1]
      by_cases h2 : r ≤ s.quantity
      · rw [if_pos h2]
        refine List.Forall₂.cons ⟨rfl, rfl, ?_, ?_⟩ (ih 0 hrest)
        · dsimp only; omega
        · dsimp only; omega
      · rw [if_neg h2]
        refine List.Forall₂.cons ⟨rfl, rfl, ?_, ?_⟩ (ih _ hrest)
        · dsimp only; omega
        · dsimp only; omega

/-- The loop sells exactly `r` seedlings when `r` is available. -/
lemma consumeLots_sum (r : Int) (l : List Stock) (hr : 0 ≤ r)
    (hle : r ≤ (l.map (fun s => s.quantity)).sum) :
    ((consumeLots r l).map (fun s => s.quantity)).sum
      = (l.map (fun s => s.quantity)).sum - r := by
  induction l generalizing r with
  | nil =>
    simp only [List.map_nil, List.sum_nil] at hle
    rw [consumeLots_nonpos r [] hle]
    simp only [List.map_nil, List.sum_nil]; omega
  | cons s rest ih =>
    by_cases h1 : r ≤ 0
    · rw [consumeLots_nonpos _ _ h1]; omega
    · rw [consumeLots, if_neg h1]
      simp only [List.map_cons, List.sum_cons] at hle
      by_cases h2 : r ≤ s.quantity
      · rw [if_pos h2, consumeLots_nonpos 0 rest (le_refl 0)]
        simp only [List.map_cons, List.sum_cons]; omega
      · rw [if_neg h2]
        have := ih (r - s.quantity) (by omega) (by omega)
        simp only [List.map_cons, List.sum_cons, this]; omega

/-- FIFO: if the loop touched the lot at position `j`, every earlier lot
was drained to zero. -/
lemma consumeLots_drain (d : Stock) :
    ∀ (l : List Stock) (r : Int) (i j : Nat), i < j →
      ((consumeLots r l).getD j d).quantity < (l.getD j d).quantity →
      ((consumeLots r l).getD i d).quantity = 0 := by
  intro l
  induction l with
  | nil =>
    intro r i j hij hlt
    exact absurd hlt (lt_irrefl _)
  | cons s rest ih =>
    intro r i j hij hlt
    by_cases h1 : r ≤ 0
    · rw [consumeLots_nonpos _ _ h1] at hlt
      exact absurd hlt (lt_irrefl _)
    · rw [consumeLots, if_neg h1] at hlt ⊢
      by_cases h2 : r ≤ s.quantity
      · rw [if_pos h2, consumeLots_nonpos 0 rest (le_refl 0)] at hlt
        cases j with
        | zero => exact absurd hij (Nat.not_lt_zero i)
        | succ j' =>
          rw [List.getD_cons_succ, List.getD_cons_succ] at hlt
          exact absurd hlt (lt_irrefl _)
      · rw [if_neg h2] at hlt ⊢
        cases i with
        | zero => rw [List.getD_cons_zero]
        | succ i' =>
          cases j with
          | zero => exact absurd hij (Nat.not_lt_zero _)
          | succ j' =>
            rw [List.getD_cons_succ, List.getD_cons_succ] at hlt
            rw [List.getD_cons_succ]
            exact ih _ i' j' (by omega) hlt

/-! ### Totals over the stock table -/

lemma typeQtyL_nil (tid : Nat) : typeQtyL [] tid = 0 := rfl

lemma typeQtyL_cons (s : Stock) (l : List Stock) (tid : Nat) :
    typeQtyL (s :: l) tid
      = (if s.tree_type_id == tid then s.quantity else 0) + typeQtyL l tid := by
  unfold typeQtyL
  rw [List.filter_cons]
  cases h : (s.tree_type_id == tid) with
  | true => simp [h]
  | false => simp [h]

lemma typeQtyL_append (l₁ l₂ : List Stock) (tid : Nat) :
    typeQtyL (l₁ ++ l₂) tid = typeQtyL l₁ tid + typeQtyL l₂ tid := by
  unfold typeQtyL
  rw [List.filter_append, List.map_append, List.sum_append]

/-- Effect on a tree type's total of a map that rewrites the single row
`fs` (identified by its primary key through `hkeep`) and fixes every other
row. -/
lemma typeQtyL_map_single (l : List Stock) (f : Stock → Stock) (fs : Stock) (tid : Nat)
    (hnd : (l.map (fun s => s.id)).Nodup) (hmem : fs ∈ l)
    (hkeep : ∀ s ∈ l, s ≠ fs → f s = s)
    (htt : (f fs).tree_type_id = fs.tree_type_id) :
    typeQtyL (l.map f) tid
      = typeQtyL l tid +
        (if fs.tree_type_id == tid then (f fs).quantity - fs.quantity else 0) := by
  induction l with
  | nil => cases hmem
  | cons a l ih =>
    rw [List.map_cons, typeQtyL_cons, typeQtyL_cons]
    rw [List.map_cons] at hnd
    rcases List.mem_cons.mp hmem with heq | hmem'
    · subst heq
      have hnotin : ∀ s ∈ l, s ≠ fs := by
        intro s hs heq
        subst heq
        exact (List.nodup_cons.mp hnd).1 (List.mem_map.mpr ⟨s, hs, rfl⟩)
      have hrest : l.map f = l := by
        have : l.map f = l.map id :=
          List.map_congr_left
            (fun s hs => hkeep s (List.mem_cons_of_mem _ hs) (hnotin s hs))
        rw [this, List.map_id]
      rw [hrest, htt]
      cases h : (fs.tree_type_id == tid) with
      | true => simp only [h, if_pos]; ring
      | false => simp only [h, Bool.false_eq_true, if_false]; ring
    · have hane : a ≠ fs := by
        intro heq
        subst heq
        exact (List.nodup_cons.mp hnd).1 (List.mem_map.mpr ⟨a, hmem', rfl⟩)
      rw [hkeep a (List.mem_cons_self _ _) hane]
      rw [ih (List.nodup_cons.mp hnd).2 hmem'
        (fun s hs => hkeep s (List.mem_cons_of_mem _ hs))]
      ring

/-- A map that fixes every row of the table is the identity on it. -/
lemma map_eq_self_of_keep (l : List Stock) (f : Stock → Stock)
    (hkeep : ∀ s ∈ l, f s = s) : l.map f = l := by
  have : l.map f = l.map id := List.map_congr_left (fun s hs => hkeep s hs)
  rw [this, List.map_id]

/-! ### Lemmas about the write-back of `record_sale` -/

lemma overwriteById_id_preserve (upd : List Stock) (s : Stock) :
    ((upd.find? (fun u => u.id == s.id)).getD s).id = s.id := by
  cases h : upd.find? (fun u => u.id == s.id) with
  | none => rfl
  | some u =>
    have := List.find?_some h
    simp only [beq_iff_eq] at this
    simp [this]

lemma overwriteById_map_id (base upd : List Stock) :
    (overwriteById base upd).map (fun s => s.id) = base.map (fun s => s.id) :=
  map_id_of_id_preserving _ (fun s => overwriteById_id_preserve upd s) base

lemma overwriteById_mem (base upd : List Stock) (t : Stock)
    (ht : t ∈ overwriteById base upd) :
    ∃ s ∈ base, t.id = s.id ∧ (t = s ∨ t ∈ upd) := by
  obtain ⟨s, hs, rfl⟩ := List.mem_map.mp ht
  refine ⟨s, hs, overwriteById_id_preserve upd s, ?_⟩
  cases h : upd.find? (fun u => u.id == s.id) with
  | none => left; simp [h]
  | some u =>
    right
    simp only [h, Option.getD_some]
    exact List.mem_of_find?_eq_some h

/-- Looking each consumed row up by the primary key of its source row
recovers exactly the consumed rows, in order. -/
lemma map_lookup_quantity :
    ∀ {avail out : List Stock}, List.Forall₂ (fun a b => b.id = a.id) avail out →
      (avail.map (fun s => s.id)).Nodup →
      avail.map (fun s => ((out.find? (fun u => u.id == s.id)).getD s).quantity)
        = out.map (fun s => s.quantity) := by
  intro avail out h
  induction h with
  | nil => intro _; rfl
  | cons hab h ih =>
    rename_i a b l₁ l₂
    intro hnd
    rw [List.map_cons] at hnd
    simp only [List.map_cons]
    congr 1
    · have hfind : List.find? (fun u => u.id == a.id) (b :: l₂) = some b := by
        apply List.find?_cons_of_pos
        simp [hab]
      rw [hfind]
      rfl
    · have hskip : ∀ s ∈ l₁,
          ((b :: l₂).find? (fun u => u.id == s.id)).getD s
            = (l₂.find? (fun u => u.id == s.id)).getD s := by
        intro s hs
        have hne : a.id ≠ s.id := by
          intro heq
          exact (List.nodup_cons.mp hnd).1 (heq ▸ List.mem_map.mpr ⟨s, hs, rfl⟩)
        have hfind : List.find? (fun u => u.id == s.id) (b :: l₂)
            = List.find? (fun u => u.id == s.id) l₂ := by
          apply List.find?_cons_of_neg
          simp only [hab, beq_iff_eq]
          exact hne
        rw [hfind]
      calc l₁.map (fun s => (((b :: l₂).find? (fun u => u.id == s.id)).getD s).quantity)
          = l₁.map (fun s => ((l₂.find? (fun u => u.id == s.id)).getD s).quantity) :=
            List.map_congr_left (fun s hs => by rw [hskip s hs])
        _ = l₂.map (fun s => s.quantity) := ih (List.nodup_cons.mp hnd).2

/-! ### Ordering facts for the sorted queries -/

instance : IsTotal Stock (fun a b => a.date_added ≤ b.date_added) :=
  ⟨fun _ _ => Nat.le_total _ _⟩

instance : IsTrans Stock (fun a b => a.date_added ≤ b.date_added) :=
  ⟨fun _ _ _ => Nat.le_trans⟩

instance : IsTotal Transaction (fun a b => b.transaction_date ≤ a.transaction_date) :=
  ⟨fun _ _ => (Nat.le_total _ _).symm⟩

instance : IsTrans Transaction (fun a b => b.transaction_date ≤ a.transaction_date) :=
  ⟨fun _ _ _ h h' => Nat.le_trans h' h⟩

/-! ### Facts about the available-stock query of `record_sale` -/

lemma availableStockEntries_perm (db : DB) (tid : Nat) :
    (availableStockEntries db tid).Perm
      (db.stocks.filter (fun s => s.tree_type_id == tid && 0 < s.quantity)) :=
  List.perm_insertionSort _ _

lemma availableStockEntries_sorted (db : DB) (tid : Nat) :
    (availableStockEntries db tid).Pairwise
      (fun a b => a.date_added ≤ b.date_added) :=
  List.sorted_insertionSort _ _

lemma mem_availableStockEntries {db : DB} {tid : Nat} {s : Stock} :
    s ∈ availableStockEntries db tid ↔
      s ∈ db.stocks ∧ s.tree_type_id = tid ∧ 0 < s.quantity := by
  unfold availableStockEntries
  rw [(List.perm_insertionSort _ _).mem_iff, List.mem_filter]
  simp only [Bool.and_eq_true, beq_iff_eq, decide_eq_true_eq, and_assoc]

lemma availableStockEntries_nodup_id (db : DB) (tid : Nat)
    (hnd : (db.stocks.map (fun s => s.id)).Nodup) :
    ((availableStockEntries db tid).map (fun s => s.id)).Nodup := by
  rw [((availableStockEntries_perm db tid).map (fun s => s.id)).nodup_iff]
  exact hnd.sublist ((List.filter_sublist _).map _)

lemma record_sale_success (db : DB) (tid : Nat) (q : Int) (now : Nat) (tt : TreeType)
    (htt : get_tree_type_by_id db tid = some tt)
    (havail : q ≤ totalAvailableQuantity db tid) :
    record_sale db tid q now =
      ({ db with
          stocks := overwriteById db.stocks
            (consumeLots q (availableStockEntries db tid)),
          transactions := db.transactions ++ [saleTransaction db tid q now tt],
          next_transaction_id := db.next_transaction_id + 1 },
        some (saleTransaction db tid q now tt)) := by
  unfold record_sale
  rw [htt]
  have hlt : ¬ ((List.map (fun s => s.quantity) (availableStockEntries db tid)).sum < q) :=
    not_lt.mpr havail
  simp only [hlt, if_false]
  rfl

/-- The quantity accounting of a successful sale: the tree type's total
over the whole stock table drops by exactly the quantity sold. -/
lemma record_sale_stocks_typeQty (db : DB) (tid : Nat) (q : Int)
    (hwf : WF db) (hq : 0 ≤ q) (havail : q ≤ totalAvailableQuantity db tid) :
    typeQtyL (overwriteById db.stocks (consumeLots q (availableStockEntries db tid))) tid
      = typeQtyL db.stocks tid - q := by
  obtain ⟨hnd, _, hpos⟩ := hwf
  have availNonneg : ∀ s ∈ availableStockEntries db tid, 0 ≤ s.quantity :=
    fun s hs => le_of_lt (mem_availableStockEntries.mp hs).2.2
  have h₂ := consumeLots_forall₂ q (availableStockEntries db tid) availNonneg
  have hids₂ : List.Forall₂ (fun a b => b.id = a.id)
      (availableStockEntries db tid) (consumeLots q (availableStockEntries db tid)) :=
    h₂.imp (fun _ _ hab => hab.1)
  have availNd := availableStockEntries_nodup_id db tid hnd
  have houtmem : ∀ u ∈ consumeLots q (availableStockEntries db tid),
      ∃ a ∈ availableStockEntries db tid,
        u.id = a.id ∧ u.tree_type_id = a.tree_type_id := by
    intro u hu
    obtain ⟨a, ha, hR⟩ := forall₂_mem_right h₂ u hu
    exact ⟨a, ha, hR.1, hR.2.1⟩
  have hftt : ∀ s ∈ db.stocks,
      (((consumeLots q (availableStockEntries db tid)).find?
          (fun u => u.id == s.id)).getD s).tree_type_id = s.tree_type_id := by
    intro s hs
    cases hfind : (consumeLots q (availableStockEntries db tid)).find?
        (fun u => u.id == s.id) with
    | none => rfl
    | some u =>
      have hu := List.mem_of_find?_eq_some hfind
      have hid : u.id = s.id := by
        have := List.find?_some hfind
        simpa using this
      obtain ⟨a, ha, hua, hutt⟩ := houtmem u hu
      have has : a = s :=
        eq_of_mem_of_id_eq hnd (mem_availableStockEntries.mp ha).1 hs (hua ▸ hid)
      simp only [Option.getD_some]
      rw [hutt, has]
  have hfixed : ∀ s ∈ db.stocks,
      (s.tree_type_id == tid && decide (0 < s.quantity)) = false →
      ((consumeLots q (availableStockEntries db tid)).find?
          (fun u => u.id == s.id)).getD s = s := by
    intro s hs hcond
    have hfind : (consumeLots q (availableStockEntries db tid)).find?
        (fun u => u.id == s.id) = none := by
      apply List.find?_eq_none.mpr
      intro u hu hbeq
      have hid : u.id = s.id := by simpa using hbeq
      obtain ⟨a, ha, hua, _⟩ := houtmem u hu
      have has : a = s :=
        eq_of_mem_of_id_eq hnd (mem_availableStockEntries.mp ha).1 hs (hua ▸ hid)
      have hav := mem_availableStockEntries.mp ha
      rw [has] at hav
      simp [hav.2.1, hav.2.2] at hcond
    rw [hfind]
    rfl
  -- Step A: the write-back preserves the tree-type column pointwise.
  have stepA : typeQtyL (overwriteById db.stocks
        (consumeLots q (availableStockEntries db tid))) tid
      = ((db.stocks.filter (fun s => s.tree_type_id == tid)).map
          (fun s => (((consumeLots q (availableStockEntries db tid)).find?
            (fun u => u.id == s.id)).getD s).quantity)).sum := by
    unfold overwriteById typeQtyL
    rw [List.filter_map, List.map_map]
    rw [List.filter_congr (fun x hx => by
      simp only [Function.comp_apply]
      rw [hftt x hx])]
    rfl
  -- Step B: each row's new quantity is its old quantity plus its delta.
  have stepB : ∀ (l : List Stock),
      (l.map (fun s => (((consumeLots q (availableStockEntries db tid)).find?
          (fun u => u.id == s.id)).getD s).quantity)).sum
        = (l.map (fun s => s.quantity)).sum
          + (l.map (fun s => (((consumeLots q (availableStockEntries db tid)).find?
              (fun u => u.id == s.id)).getD s).quantity - s.quantity)).sum := by
    intro l
    rw [← sum_map_add]
    congr 1
    apply List.map_congr_left
    intro s _
    ring
  -- Step C: only the available rows contribute a nonzero delta.
  have hzero : ∀ s ∈ db.stocks.filter (fun s => s.tree_type_id == tid),
      (fun s => decide (0 < s.quantity)) s = false →
      (fun s => (((consumeLots q (availableStockEntries db tid)).find?
          (fun u => u.id == s.id)).getD s).quantity - s.quantity) s = 0 := by
    intro s hs hdec
    have hsb := (List.mem_filter.mp hs).1
    have hcond : (s.tree_type_id == tid && decide (0 < s.quantity)) = false := by
      simp only [hdec, Bool.and_false]
    simp only [hfixed s hsb hcond]
    ring
  have stepC :
      ((db.stocks.filter (fun s => s.tree_type_id == tid)).map
          (fun s => (((consumeLots q (availableStockEntries db tid)).find?
            (fun u => u.id == s.id)).getD s).quantity - s.quantity)).sum
        = ((availableStockEntries db tid).map
            (fun s => (((consumeLots q (availableStockEntries db tid)).find?
              (fun u => u.id == s.id)).getD s).quantity - s.quantity)).sum := by
    rw [sum_map_filter_of_zero _ _ (fun s => decide (0 < s.quantity)) hzero]
    rw [List.filter_filter]
    rw [List.filter_congr (fun x _ => Bool.and_comm _ _)]
    exact (((availableStockEntries_perm db tid).map _).sum_eq).symm
  -- Step D: over the available rows the deltas sum to the consumed total
  -- minus the available total.
  have stepD :
      ((availableStockEntries db tid).map
          (fun s => (((consumeLots q (availableStockEntries db tid)).find?
            (fun u => u.id == s.id)).getD s).quantity - s.quantity)).sum
        = ((consumeLots q (availableStockEntries db tid)).map
            (fun s => s.quantity)).sum
          - ((availableStockEntries db tid).map (fun s => s.quantity)).sum := by
    have hsplit : (availableStockEntries db tid).map
        (fun s => (((consumeLots q (availableStockEntries db tid)).find?
          (fun u => u.id == s.id)).getD s).quantity - s.quantity)
        = (availableStockEntries db tid).map
          (fun s => (((consumeLots q (availableStockEntries db tid)).find?
            (fun u => u.id == s.id)).getD s).quantity + (-(s.quantity))) :=
      List.map_congr_left (fun s _ => by ring)
    rw [hsplit, sum_map_add, sum_map_neg, map_lookup_quantity hids₂ availNd]
    ring
  -- Step E: the loop consumes exactly `q`.
  have stepE := consumeLots_sum q (availableStockEntries db tid) hq havail
  have hbase : typeQtyL db.stocks tid
      = ((db.stocks.filter (fun s => s.tree_type_id == tid)).map
          (fun s => s.quantity)).sum := rfl
  rw [stepA, stepB, stepC, stepD, stepE, hbase]
  ring

/-! ### No-op paths of the ledger operations -/

lemma record_sale_eq_of_no_type (db : DB) (tid : Nat) (q : Int) (now : Nat)
    (h : get_tree_type_by_id db tid = none) :
    record_sale db tid q now = (db, none) := by
  unfold record_sale
  rw [h]

lemma record_sale_eq_of_insufficient (db : DB) (tid : Nat) (q : Int) (now : Nat)
    (h : totalAvailableQuantity db tid < q) :
    record_sale db tid q now = (db, none) := by
  unfold record_sale
  cases htt : get_tree_type_by_id db tid with
  | none => rfl
  | some tt =>
    have h' : (List.map (fun s => s.quantity) (availableStockEntries db tid)).sum < q := h
    simp only [h', if_true]

lemma move_stock_eq_of_no_source (db : DB) (fid lid : Nat) (m : Int) (now : Nat)
    (h : get_stock_by_id db fid = none) :
    move_stock_quantity db fid lid m now = (db, none) := by
  unfold move_stock_quantity
  rw [h]

lemma move_stock_eq_of_insufficient (db : DB) (fid lid : Nat) (m : Int) (now : Nat)
    (fs : Stock) (hfs : get_stock_by_id db fid = some fs) (h : fs.quantity < m) :
    move_stock_quantity db fid lid m now = (db, none) := by
  unfold move_stock_quantity
  rw [hfs]
  simp only [h, if_true]

/-! ### The claims -/

/-- Claim C2: a sale request for more than the total available quantity of
the tree type is a no-op — `record_sale` returns the `none` signal, no lot
quantity changes and no transaction row is created (the store is returned
unchanged). -/
theorem record_sale_insufficient_noop (db : DB) (tid : Nat) (q : Int) (now : Nat)
    (h : totalAvailableQuantity db tid < q) :
    record_sale db tid q now = (db, none) :=
  record_sale_eq_of_insufficient db tid q now h

theorem record_sale_insufficient_noop_witness :
    totalAvailableQuantity wDB 1 < 16 ∧ record_sale wDB 1 16 100 = (wDB, none) :=
  ⟨by decide, record_sale_insufficient_noop wDB 1 16 100 (by decide)⟩

/-- Claim C9: a sale request for a tree type id that does not exist is
answered with the explicit `none` signal, not an exception, and the store
is returned unchanged: no lot and no transaction row is touched. -/
theorem record_sale_unknown_type_noop (db : DB) (tid : Nat) (q : Int) (now : Nat)
    (h : get_tree_type_by_id db tid = none) :
    record_sale db tid q now = (db, none) :=
  record_sale_eq_of_no_type db tid q now h

theorem record_sale_unknown_type_noop_witness :
    get_tree_type_by_id wDB 9 = none ∧ record_sale wDB 9 3 100 = (wDB, none) :=
  ⟨by decide, record_sale_unknown_type_noop wDB 9 3 100 (by decide)⟩

/-- Claim C4: a transfer whose source lot id does not exist, or whose
source lot holds less than the requested quantity, returns the `none`
signal and mutates no lot (the store is returned unchanged). -/
theorem move_stock_noop (db : DB) (fid lid : Nat) (m : Int) (now : Nat) :
    (get_stock_by_id db fid = none → move_stock_quantity db fid lid m now = (db, none)) ∧
    (∀ fs : Stock, get_stock_by_id db fid = some fs → fs.quantity < m →
      move_stock_quantity db fid lid m now = (db, none)) :=
  ⟨fun h => move_stock_eq_of_no_source db fid lid m now h,
   fun fs hfs h => move_stock_eq_of_insufficient db fid lid m now fs hfs h⟩

theorem move_stock_noop_witness :
    (get_stock_by_id wDB 9 = none ∧ move_stock_quantity wDB 9 1 5 7 = (wDB, none)) ∧
    (get_stock_by_id wDB 1 = some wLotA ∧ wLotA.quantity < 99 ∧
      move_stock_quantity wDB 1 2 99 7 = (wDB, none)) :=
  ⟨⟨by decide, (move_stock_noop wDB 9 1 5 7).1 (by decide)⟩,
   ⟨by decide, by decide, (move_stock_noop wDB 1 2 99 7).2 wLotA (by decide) (by decide)⟩⟩

/-- Claim C6: on valid input (positive quantity, non-negative cost),
`add_stock_entry` appends exactly one new lot row carrying the given
attributes, leaves every existing lot untouched, and raises the location's
total quantity of the tree type by exactly the given quantity. -/
theorem add_stock_creates_new_lot (db : DB) (tid lid : Nat) (q : Int) (c : Rat)
    (now : Nat) (hq : 0 < q) (hc : 0 ≤ c) :
    ∃ s : Stock,
      add_stock_entry db tid lid q c now
        = ({ db with stocks := db.stocks ++ [s],
                     next_stock_id := db.next_stock_id + 1 }, s) ∧
      s.tree_type_id = tid ∧ s.location_id = lid ∧ s.quantity = q ∧
      s.cost_per_seedling = c ∧ s.id = db.next_stock_id ∧ s.date_added = now ∧
      locationTypeQuantity (add_stock_entry db tid lid q c now).1 tid lid
        = locationTypeQuantity db tid lid + q := by
  refine ⟨{ id := db.next_stock_id, tree_type_id := tid, location_id := lid,
            quantity := q, date_added := now, cost_per_seedling := c },
    rfl, rfl, rfl, rfl, rfl, rfl, rfl, ?_⟩
  unfold locationTypeQuantity add_stock_entry
  rw [List.filter_append, List.map_append, List.sum_append]
  simp

theorem add_stock_creates_new_lot_witness :
    (0 : Int) < 6 ∧ (0 : Rat) ≤ 0 ∧
    ∃ s : Stock,
      add_stock_entry wDB 1 2 6 0 9
        = ({ wDB with stocks := wDB.stocks ++ [s],
                      next_stock_id := wDB.next_stock_id + 1 }, s) ∧
      s.tree_type_id = 1 ∧ s.location_id = 2 ∧ s.quantity = 6 ∧
      s.cost_per_seedling = 0 ∧ s.id = wDB.next_stock_id ∧ s.date_added = 9 ∧
      locationTypeQuantity (add_stock_entry wDB 1 2 6 0 9).1 1 2
        = locationTypeQuantity wDB 1 2 + 6 :=
  ⟨by decide, by decide, add_stock_creates_new_lot wDB 1 2 6 0 9 (by decide) (by decide)⟩

/-- Claim C10: the inventory query treats a filter id of 0 exactly like an
absent filter (the Python guard is on truthiness), and for a positive id
it returns exactly the lots whose foreign key matches. -/
theorem get_all_stock_entries_truthy (db : DB) (t l : Option Nat) :
    get_all_stock_entries db (some 0) l = get_all_stock_entries db none l ∧
    get_all_stock_entries db t (some 0) = get_all_stock_entries db t none ∧
    get_all_stock_entries db none none = db.stocks ∧
    (∀ i : Nat, 0 < i → get_all_stock_entries db (some i) none
        = db.stocks.filter (fun s => s.tree_type_id == i)) ∧
    (∀ j : Nat, 0 < j → get_all_stock_entries db none (some j)
        = db.stocks.filter (fun s => s.location_id == j)) ∧
    (∀ i j : Nat, 0 < i → 0 < j → get_all_stock_entries db (some i) (some j)
        = (db.stocks.filter (fun s => s.tree_type_id == i)).filter
            (fun s => s.location_id == j)) := by
  refine ⟨rfl, ?_, rfl, ?_, ?_, ?_⟩
  · cases t with
    | none => rfl
    | some i =>
      unfold get_all_stock_entries
      cases h : (i != 0) <;> simp [h]
  · intro i hi
    have hne : (i != 0) = true := by
      simp only [bne_iff_ne, ne_eq]
      omega
    unfold get_all_stock_entries
    simp [hne]
  · intro j hj
    have hne : (j != 0) = true := by
      simp only [bne_iff_ne, ne_eq]
      omega
    unfold get_all_stock_entries
    simp [hne]
  · intro i j hi hj
    have hnei : (i != 0) = true := by
      simp only [bne_iff_ne, ne_eq]
      omega
    have hnej : (j != 0) = true := by
      simp only [bne_iff_ne, ne_eq]
      omega
    unfold get_all_stock_entries
    simp [hnei, hnej]

theorem get_all_stock_entries_truthy_witness :
    get_all_stock_entries wDB (some 0) (some 0) = get_all_stock_entries wDB none (some 0) ∧
    (0 < 1 ∧ get_all_stock_entries wDB (some 1) none
        = wDB.stocks.filter (fun s => s.tree_type_id == 1)) ∧
    (0 < 2 ∧ get_all_stock_entries wDB none (some 2)
        = wDB.stocks.filter (fun s => s.location_id == 2)) :=
  ⟨(get_all_stock_entries_truthy wDB (some 0) (some 0)).1,
   ⟨by decide, (get_all_stock_entries_truthy wDB none none).2.2.2.1 1 (by decide)⟩,
   ⟨by decide, (get_all_stock_entries_truthy wDB none none).2.2.2.2.1 2 (by decide)⟩⟩

/-- Claim C8: with both bounds given, the sales-history query returns
transactions in descending `transaction_date` order and contains exactly
the transactions from midnight of the start date up to strictly before
midnight of the day after the end date — so a transaction dated anywhere
on the end day is included.  The query reads the store without changing
it. -/
theorem get_all_transactions_range (db : DB) (sd ed : Nat) :
    (get_all_transactions db (some sd) (some ed)).Pairwise
      (fun a b => b.transaction_date ≤ a.transaction_date) ∧
    ∀ t : Transaction, t ∈ get_all_transactions db (some sd) (some ed) ↔
      (t ∈ db.transactions ∧ dateToDateTime sd ≤ t.transaction_date ∧
        t.transaction_date < dateToDateTime (ed + 1)) := by
  constructor
  · have hsorted : (db.transactions.insertionSort
        (fun a b => b.transaction_date ≤ a.transaction_date)).Pairwise
        (fun a b => b.transaction_date ≤ a.transaction_date) :=
      List.sorted_insertionSort _ _
    exact (hsorted.sublist (List.filter_sublist _)).sublist (List.filter_sublist _)
  · intro t
    unfold get_all_transactions
    rw [List.mem_filter, List.mem_filter,
      (List.perm_insertionSort (fun a b => b.transaction_date ≤ a.transaction_date)
        db.transactions).mem_iff]
    simp only [decide_eq_true_eq, and_assoc]

/-- Claim C1: when the requested quantity is covered by the total available
stock of an existing tree type, `record_sale` succeeds and satisfies
`RecordSaleFifoSpec`: exactly one transaction is appended with
`total_amount = unit price × quantity`, the tree type's total quantity
drops by exactly the quantity sold, the candidate lots are processed in
ascending creation-time order with each lot drained to zero before a later
lot is touched, and every other lot is left untouched. -/
theorem record_sale_fifo_correct (db : DB) (tid : Nat) (q : Int) (now : Nat)
    (tt : TreeType) (hwf : WF db) (htt : get_tree_type_by_id db tid = some tt)
    (hq : 0 < q) (havail : q ≤ totalAvailableQuantity db tid) :
    RecordSaleFifoSpec db tid q now tt := by
  have hrs := record_sale_success db tid q now tt htt havail
  obtain ⟨hnd, hbound, hpos⟩ := hwf
  have availNonneg : ∀ s ∈ availableStockEntries db tid, 0 ≤ s.quantity :=
    fun s hs => le_of_lt (mem_availableStockEntries.mp hs).2.2
  have h₂ := consumeLots_forall₂ q (availableStockEntries db tid) availNonneg
  refine ⟨saleTransaction db tid q now tt, ?_, ?_, rfl, rfl, rfl, ?_, ?_, ?_, ?_, ?_⟩
  · rw [hrs]
  · rw [hrs]
  · rw [hrs]
    exact record_sale_stocks_typeQty db tid q ⟨hnd, hbound, hpos⟩ hq.le havail
  · exact availableStockEntries_sorted db tid
  · intro i j hij hlt
    exact consumeLots_drain dummyStock _ q i j hij hlt
  · rw [hrs]
  · rw [hrs]
    intro t ht
    obtain ⟨s, hs, hid, hcase⟩ := overwriteById_mem _ _ t ht
    rcases hcase with heq | htout
    · subst heq
      exact ⟨t, hs, rfl, rfl, le_refl _, fun _ => rfl⟩
    · obtain ⟨a, ha, haR⟩ := forall₂_mem_right h₂ t htout
      have hamem := mem_availableStockEntries.mp ha
      have has : a = s :=
        eq_of_mem_of_id_eq hnd hamem.1 hs (haR.1 ▸ hid)
      refine ⟨s, hs, hid, ?_, ?_, ?_⟩
      · rw [haR.2.1, has]
      · rw [← has]; exact haR.2.2.1
      · intro hne
        exact absurd (has ▸ hamem.2.1) hne

theorem record_sale_fifo_correct_witness :
    WF wDB ∧ get_tree_type_by_id wDB 1 = some oakType ∧ (0 : Int) < 12 ∧
    12 ≤ totalAvailableQuantity wDB 1 ∧ RecordSaleFifoSpec wDB 1 12 100 oakType :=
  ⟨by decide, by decide, by decide, by decide,
   record_sale_fifo_correct wDB 1 12 100 oakType (by decide) (by decide)
     (by decide) (by decide)⟩

/-! ### Lemmas about `move_stock_quantity` -/

lemma get_stock_by_id_spec (db : DB) (fid : Nat) (fs : Stock)
    (h : get_stock_by_id db fid = some fs) : fs ∈ db.stocks ∧ fs.id = fid := by
  unfold get_stock_by_id at h
  refine ⟨List.mem_of_find?_eq_some h, ?_⟩
  have := List.find?_some h
  simpa using this

lemma destLotQuery_spec (db : DB) (tt_id lid : Nat) (es : Stock)
    (h : destLotQuery db tt_id lid = some es) :
    es ∈ db.stocks ∧ es.tree_type_id = tt_id ∧ es.location_id = lid := by
  unfold destLotQuery at h
  refine ⟨List.mem_of_find?_eq_some h, ?_, ?_⟩
  · have := List.find?_some h
    simp only [Bool.and_eq_true, beq_iff_eq] at this
    exact this.1
  · have := List.find?_some h
    simp only [Bool.and_eq_true, beq_iff_eq] at this
    exact this.2

lemma addQuantityById_map_id (l : List Stock) (x : Nat) (d : Int) :
    (addQuantityById l x d).map (fun s => s.id) = l.map (fun s => s.id) :=
  map_id_of_id_preserving _ (fun s => by split <;> rfl) l

lemma subQuantityById_map_id (l : List Stock) (x : Nat) (d : Int) :
    (subQuantityById l x d).map (fun s => s.id) = l.map (fun s => s.id) :=
  map_id_of_id_preserving _ (fun s => by split <;> rfl) l

lemma addQuantityById_find? (l : List Stock) (x : Nat) (d : Int) (y : Nat) :
    (addQuantityById l x d).find? (fun s => s.id == y)
      = (l.find? (fun s => s.id == y)).map
          (fun s => if s.id == x then { s with quantity := s.quantity + d } else s) :=
  find?_id_map _ (fun s => by split <;> rfl) l y

lemma subQuantityById_find? (l : List Stock) (x : Nat) (d : Int) (y : Nat) :
    (subQuantityById l x d).find? (fun s => s.id == y)
      = (l.find? (fun s => s.id == y)).map
          (fun s => if s.id == x then { s with quantity := s.quantity - d } else s) :=
  find?_id_map _ (fun s => by split <;> rfl) l y

/-- When primary keys are distinct, looking a member row up by its own key
finds exactly that row. -/
lemma find?_id_of_mem (l : List Stock) (hnd : (l.map (fun s => s.id)).Nodup)
    (es : Stock) (hmem : es ∈ l) :
    l.find? (fun s => s.id == es.id) = some es := by
  induction l with
  | nil => cases hmem
  | cons a l ih =>
    rw [List.map_cons] at hnd
    rcases List.mem_cons.mp hmem with heq | hmem'
    · subst heq
      have : List.find? (fun s => s.id == es.id) (es :: l) = some es := by
        apply List.find?_cons_of_pos
        simp
      exact this
    · have hne : a.id ≠ es.id := fun hcontra =>
        (List.nodup_cons.mp hnd).1 (hcontra ▸ List.mem_map.mpr ⟨es, hmem', rfl⟩)
      have hskip : List.find? (fun s => s.id == es.id) (a :: l)
          = List.find? (fun s => s.id == es.id) l := by
        apply List.find?_cons_of_neg
        simp [hne]
      rw [hskip]
      exact ih (List.nodup_cons.mp hnd).2 hmem'

lemma find?_append_left {α : Type} (l₁ l₂ : List α) (p : α → Bool) (a : α)
    (h : l₁.find? p = some a) : (l₁ ++ l₂).find? p = some a := by
  induction l₁ with
  | nil => cases h
  | cons b l ih =>
    cases hb : p b with
    | true =>
      rw [List.find?_cons_of_pos _ hb] at h
      rw [List.cons_append, List.find?_cons_of_pos _ hb]
      exact h
    | false =>
      rw [List.find?_cons_of_neg _ (by simp [hb])] at h
      rw [List.cons_append, List.find?_cons_of_neg _ (by simp [hb])]
      exact ih h

/-- Full description of a successful transfer into an existing destination
lot that is distinct from the source lot. -/
lemma move_stock_existing_spec (db : DB) (fid lid : Nat) (m : Int) (now : Nat)
    (fs es : Stock) (hnd : (db.stocks.map (fun s => s.id)).Nodup)
    (hfs : get_stock_by_id db fid = some fs) (hnl : ¬ fs.quantity < m)
    (hes : destLotQuery db fs.tree_type_id lid = some es) (hne : es.id ≠ fid) :
    (move_stock_quantity db fid lid m now).2
        = some ({ fs with quantity := fs.quantity - m },
                { es with quantity := es.quantity + m }) ∧
    (move_stock_quantity db fid lid m now).1.stocks.map (fun s => s.id)
        = db.stocks.map (fun s => s.id) ∧
    typeQuantity (move_stock_quantity db fid lid m now).1 fs.tree_type_id
        = typeQuantity db fs.tree_type_id ∧
    (move_stock_quantity db fid lid m now).1.stocks
        = subQuantityById (addQuantityById db.stocks es.id m) fid m := by
  obtain ⟨hfsmem, hfsid⟩ := get_stock_by_id_spec db fid fs hfs
  obtain ⟨hesmem, hestt, hesloc⟩ := destLotQuery_spec db fs.tree_type_id lid es hes
  have heq : move_stock_quantity db fid lid m now
      = ({ db with stocks := subQuantityById (addQuantityById db.stocks es.id m) fid m },
         some (refreshById (subQuantityById (addQuantityById db.stocks es.id m) fid m) fid fs,
               refreshById (subQuantityById (addQuantityById db.stocks es.id m) fid m) es.id es)) := by
    unfold move_stock_quantity
    rw [hfs]
    dsimp only
    rw [if_neg hnl, hes]
  have hfs_ne_es : (fs.id == es.id) = false := by
    simp only [beq_eq_false_iff_ne, ne_eq, hfsid]
    exact fun hcontra => hne (hcontra.symm)
  have hbasefind : db.stocks.find? (fun s => s.id == fid) = some fs := hfs
  have hg1fs : (if fs.id == es.id then { fs with quantity := fs.quantity + m } else fs) = fs :=
    if_neg (by simp [hfs_ne_es])
  have hf' : refreshById (subQuantityById (addQuantityById db.stocks es.id m) fid m) fid fs
      = { fs with quantity := fs.quantity - m } := by
    unfold refreshById
    rw [subQuantityById_find?, addQuantityById_find?, hbasefind,
      Option.map_some', Option.map_some', Option.getD_some, hg1fs]
    exact if_pos (by simp [hfsid])
  have hesfind : db.stocks.find? (fun s => s.id == es.id) = some es :=
    find?_id_of_mem db.stocks hnd es hesmem
  have ht' : refreshById (subQuantityById (addQuantityById db.stocks es.id m) fid m) es.id es
      = { es with quantity := es.quantity + m } := by
    unfold refreshById
    rw [subQuantityById_find?, addQuantityById_find?, hesfind,
      Option.map_some', Option.map_some', Option.getD_some]
    have hg1es : (if es.id == es.id then { es with quantity := es.quantity + m } else es)
        = { es with quantity := es.quantity + m } := if_pos (by simp)
    rw [hg1es]
    exact if_neg (by simp [hne])
  have hfs_in_add : fs ∈ addQuantityById db.stocks es.id m := by
    unfold addQuantityById
    rw [← hg1fs]
    exact List.mem_map.mpr ⟨fs, hfsmem, rfl⟩
  have hadd_nd : ((addQuantityById db.stocks es.id m).map (fun s => s.id)).Nodup := by
    rw [addQuantityById_map_id]
    exact hnd
  have hq1 : typeQtyL (addQuantityById db.stocks es.id m) fs.tree_type_id
      = typeQtyL db.stocks fs.tree_type_id + m := by
    unfold addQuantityById
    rw [typeQtyL_map_single db.stocks _ es fs.tree_type_id hnd hesmem
      (fun s hs hsne => by
        have : (s.id == es.id) = false := by
          simp only [beq_eq_false_iff_ne, ne_eq]
          exact fun hcontra => hsne (eq_of_mem_of_id_eq hnd hs hesmem hcontra)
        rw [this]
        simp)
      (by split <;> rfl)]
    simp only [beq_self_eq_true, if_true, hestt]
    have : (if (fs.tree_type_id == fs.tree_type_id) = true then
        (if es.id == es.id then { es with quantity := es.quantity + m } else es).quantity
          - es.quantity else 0) = m := by
      simp
    omega
  have hq2 : typeQtyL (subQuantityById (addQuantityById db.stocks es.id m) fid m)
        fs.tree_type_id
      = typeQtyL (addQuantityById db.stocks es.id m) fs.tree_type_id - m := by
    unfold subQuantityById
    rw [typeQtyL_map_single (addQuantityById db.stocks es.id m) _ fs fs.tree_type_id
      hadd_nd hfs_in_add
      (fun s hs hsne => by
        have : (s.id == fid) = false := by
          simp only [beq_eq_false_iff_ne, ne_eq]
          intro hcontra
          exact hsne (eq_of_mem_of_id_eq hadd_nd hs hfs_in_add (by rw [hcontra, hfsid]))
        rw [this]
        simp)
      (by split <;> rfl)]
    simp only [beq_self_eq_true, if_true, hfsid]
    have : (if fs.id == fid then { fs with quantity := fs.quantity - m } else fs).quantity
        = fs.quantity - m := by
      simp [hfsid]
    omega
  refine ⟨?_, ?_, ?_, ?_⟩
  · rw [heq, hf', ht']
  · rw [heq]
    show (subQuantityById (addQuantityById db.stocks es.id m) fid m).map (fun s => s.id)
        = db.stocks.map (fun s => s.id)
    rw [subQuantityById_map_id, addQuantityById_map_id]
  · rw [heq]
    show typeQtyL (subQuantityById (addQuantityById db.stocks es.id m) fid m)
        fs.tree_type_id = typeQtyL db.stocks fs.tree_type_id
    omega
  · rw [heq]

/-- Full description of a successful transfer that creates a fresh
destination lot. -/
lemma move_stock_new_spec (db : DB) (fid lid : Nat) (m : Int) (now : Nat)
    (fs : Stock) (hnd : (db.stocks.map (fun s => s.id)).Nodup)
    (hfs : get_stock_by_id db fid = some fs) (hnl : ¬ fs.quantity < m)
    (hnone : destLotQuery db fs.tree_type_id lid = none) :
    (move_stock_quantity db fid lid m now).2
        = some ({ fs with quantity := fs.quantity - m },
                { id := db.next_stock_id, tree_type_id := fs.tree_type_id,
                  location_id := lid, quantity := m, date_added := now,
                  cost_per_seedling := fs.cost_per_seedling }) ∧
    (move_stock_quantity db fid lid m now).1.stocks.map (fun s => s.id)
        = db.stocks.map (fun s => s.id) ++ [db.next_stock_id] ∧
    typeQuantity (move_stock_quantity db fid lid m now).1 fs.tree_type_id
        = typeQuantity db fs.tree_type_id ∧
    (move_stock_quantity db fid lid m now).1.stocks
        = subQuantityById db.stocks fid m
          ++ [{ id := db.next_stock_id, tree_type_id := fs.tree_type_id,
                location_id := lid, quantity := m, date_added := now,
                cost_per_seedling := fs.cost_per_seedling }] ∧
    (move_stock_quantity db fid lid m now).1.next_stock_id = db.next_stock_id + 1 := by
  obtain ⟨hfsmem, hfsid⟩ := get_stock_by_id_spec db fid fs hfs
  have heq : move_stock_quantity db fid lid m now
      = ({ db with
            stocks := subQuantityById db.stocks fid m
              ++ [{ id := db.next_stock_id, tree_type_id := fs.tree_type_id,
                    location_id := lid, quantity := m, date_added := now,
                    cost_per_seedling := fs.cost_per_seedling }],
            next_stock_id := db.next_stock_id + 1 },
         some (refreshById (subQuantityById db.stocks fid m
              ++ [{ id := db.next_stock_id, tree_type_id := fs.tree_type_id,
                    location_id := lid, quantity := m, date_added := now,
                    cost_per_seedling := fs.cost_per_seedling }]) fid fs,
              { id := db.next_stock_id, tree_type_id := fs.tree_type_id,
                location_id := lid, quantity := m, date_added := now,
                cost_per_seedling := fs.cost_per_seedling })) := by
    unfold move_stock_quantity
    rw [hfs]
    dsimp only
    rw [if_neg hnl, hnone]
  have hbasefind : db.stocks.find? (fun s => s.id == fid) = some fs := hfs
  have hsubfind : (subQuantityById db.stocks fid m).find? (fun s => s.id == fid)
      = some { fs with quantity := fs.quantity - m } := by
    rw [subQuantityById_find?, hbasefind]
    simp [hfsid]
  have hf' : refreshById (subQuantityById db.stocks fid m
        ++ [{ id := db.next_stock_id, tree_type_id := fs.tree_type_id,
              location_id := lid, quantity := m, date_added := now,
              cost_per_seedling := fs.cost_per_seedling }]) fid fs
      = { fs with quantity := fs.quantity - m } := by
    unfold refreshById
    rw [find?_append_left _ _ _ _ hsubfind]
    rfl
  have hq1 : typeQtyL (subQuantityById db.stocks fid m) fs.tree_type_id
      = typeQtyL db.stocks fs.tree_type_id - m := by
    unfold subQuantityById
    rw [typeQtyL_map_single db.stocks _ fs fs.tree_type_id hnd hfsmem
      (fun s hs hsne => by
        have : (s.id == fid) = false := by
          simp only [beq_eq_false_iff_ne, ne_eq]
          intro hcontra
          exact hsne (eq_of_mem_of_id_eq hnd hs hfsmem (by rw [hcontra, hfsid]))
        rw [this]
        simp)
      (by split <;> rfl)]
    simp only [beq_self_eq_true, if_true]
    have : (if fs.id == fid then { fs with quantity := fs.quantity - m } else fs).quantity
        = fs.quantity - m := by
      simp [hfsid]
    omega
  refine ⟨?_, ?_, ?_, ?_, ?_⟩
  · rw [heq, hf']
  · rw [heq]
    show ((subQuantityById db.stocks fid m) ++ _).map (fun s => s.id) = _
    rw [List.map_append, subQuantityById_map_id]
    rfl
  · rw [heq]
    show typeQtyL ((subQuantityById db.stocks fid m) ++ _) fs.tree_type_id
        = typeQtyL db.stocks fs.tree_type_id
    rw [typeQtyL_append, typeQtyL_cons, typeQtyL_nil]
    simp only [beq_self_eq_true, if_true]
    omega
  · rw [heq]
  · rw [heq]

/-- Claim C3 (amended): for every successful transfer in which the
destination lot matched by the engine is not the source lot itself, the
tree type's total quantity across all lots is unchanged, the source lot's
quantity drops by exactly the moved amount, and the destination lot's
quantity rises by exactly the moved amount (starting from zero when a new
destination lot is created).  When the matched destination lot IS the
source lot (a transfer to the lot's own location), the total is still
conserved but the source row's quantity ends up unchanged instead of
decremented — see the counterexample. -/
theorem move_stock_conserves (db : DB) (fid lid : Nat) (m : Int) (now : Nat)
    (fs : Stock) (hwf : WF db) (hfs : get_stock_by_id db fid = some fs)
    (hm : 0 < m) (hle : m ≤ fs.quantity)
    (hsep : ∀ es : Stock, destLotQuery db fs.tree_type_id lid = some es → es.id ≠ fid) :
    ∃ f' t' : Stock,
      (move_stock_quantity db fid lid m now).2 = some (f', t') ∧
      f'.id = fs.id ∧ f'.quantity = fs.quantity - m ∧
      typeQuantity (move_stock_quantity db fid lid m now).1 fs.tree_type_id
        = typeQuantity db fs.tree_type_id ∧
      (∀ es : Stock, destLotQuery db fs.tree_type_id lid = some es →
        t'.id = es.id ∧ t'.quantity = es.quantity + m) ∧
      (destLotQuery db fs.tree_type_id lid = none →
        t'.id = db.next_stock_id ∧ t'.quantity = m) := by
  obtain ⟨hnd, _, _⟩ := hwf
  have hnl : ¬ fs.quantity < m := not_lt.mpr hle
  cases hdest : destLotQuery db fs.tree_type_id lid with
  | some es =>
    obtain ⟨hsnd, hids, hq, _⟩ :=
      move_stock_existing_spec db fid lid m now fs es hnd hfs hnl hdest (hsep es hdest)
    refine ⟨{ fs with quantity := fs.quantity - m },
            { es with quantity := es.quantity + m }, hsnd, rfl, rfl, hq, ?_, ?_⟩
    · intro es' hes'
      cases hes'
      exact ⟨rfl, rfl⟩
    · intro hnone
      cases hnone
  | none =>
    obtain ⟨hsnd, hids, hq, _, _⟩ :=
      move_stock_new_spec db fid lid m now fs hnd hfs hnl hdest
    refine ⟨{ fs with quantity := fs.quantity - m },
            { id := db.next_stock_id, tree_type_id := fs.tree_type_id,
              location_id := lid, quantity := m, date_added := now,
              cost_per_seedling := fs.cost_per_seedling },
            hsnd, rfl, rfl, hq, ?_, fun _ => ⟨rfl, rfl⟩⟩
    intro es' hes'
    cases hes'

/-- Counterexample to claim C3 as stated: a transfer of 2 seedlings from a
lot of 5 to that lot's own location satisfies every precondition of a
"successful transfer", succeeds, and conserves the total — but the source
lot's quantity stays 5 instead of dropping to 3, because the destination
query matches the source row itself and the `+= 2` and `-= 2` hit the same
row. -/
theorem move_stock_conserves_cex :
    WF selfDB ∧ get_stock_by_id selfDB 1 = some selfLot ∧ (0 : Int) < 2 ∧
    2 ≤ selfLot.quantity ∧
    (move_stock_quantity selfDB 1 1 2 0).2 = some (selfLot, selfLot) ∧
    (move_stock_quantity selfDB 1 1 2 0).1.stocks = [selfLot] ∧
    selfLot.quantity = 5 ∧ ¬ (selfLot.quantity = selfLot.quantity - 2) := by
  decide

theorem move_stock_conserves_witness :
    WF wDB ∧ get_stock_by_id wDB 1 = some wLotA ∧ (0 : Int) < 4 ∧
    4 ≤ wLotA.quantity ∧
    ∃ f' t' : Stock,
      (move_stock_quantity wDB 1 2 4 7).2 = some (f', t') ∧
      f'.id = wLotA.id ∧ f'.quantity = wLotA.quantity - 4 ∧
      typeQuantity (move_stock_quantity wDB 1 2 4 7).1 wLotA.tree_type_id
        = typeQuantity wDB wLotA.tree_type_id ∧
      (∀ es : Stock, destLotQuery wDB wLotA.tree_type_id 2 = some es →
        t'.id = es.id ∧ t'.quantity = es.quantity + 4) ∧
      (destLotQuery wDB wLotA.tree_type_id 2 = none →
        t'.id = wDB.next_stock_id ∧ t'.quantity = 4) := by
  refine ⟨by decide, by decide, by decide, by decide, ?_⟩
  apply move_stock_conserves wDB 1 2 4 7 wLotA (by decide) (by decide)
    (by decide) (by decide)
  intro es hes
  have hq : destLotQuery wDB wLotA.tree_type_id 2 = some wLotB := by decide
  rw [hq] at hes
  cases hes
  decide

/-- Claim C5 (amended): for every successful transfer, when a lot of the
same tree type already exists at the destination and that lot is not the
source lot itself, `move_stock_quantity` increments that existing lot by
the moved amount and creates no new lot row (the table's primary keys are
unchanged); when no such lot exists, it appends exactly one new lot whose
cost-per-unit is copied from the source lot.  In the excluded self-transfer
case the matched "existing lot" is the source row, whose quantity ends up
unchanged — see the counterexample. -/
theorem move_stock_dest_upsert (db : DB) (fid lid : Nat) (m : Int) (now : Nat)
    (fs : Stock) (hwf : WF db) (hfs : get_stock_by_id db fid = some fs)
    (hm : 0 < m) (hle : m ≤ fs.quantity) :
    (∀ es : Stock, destLotQuery db fs.tree_type_id lid = some es → es.id ≠ fid →
      (move_stock_quantity db fid lid m now).1.stocks.map (fun s => s.id)
          = db.stocks.map (fun s => s.id) ∧
      ∃ f' : Stock, (move_stock_quantity db fid lid m now).2
          = some (f', { es with quantity := es.quantity + m })) ∧
    (destLotQuery db fs.tree_type_id lid = none →
      (move_stock_quantity db fid lid m now).1.stocks.map (fun s => s.id)
          = db.stocks.map (fun s => s.id) ++ [db.next_stock_id] ∧
      ∃ f' : Stock, (move_stock_quantity db fid lid m now).2
          = some (f', { id := db.next_stock_id, tree_type_id := fs.tree_type_id,
                        location_id := lid, quantity := m, date_added := now,
                        cost_per_seedling := fs.cost_per_seedling })) := by
  obtain ⟨hnd, _, _⟩ := hwf
  have hnl : ¬ fs.quantity < m := not_lt.mpr hle
  constructor
  · intro es hes hne
    obtain ⟨hsnd, hids, _, _⟩ :=
      move_stock_existing_spec db fid lid m now fs es hnd hfs hnl hes hne
    exact ⟨hids, { fs with quantity := fs.quantity - m }, hsnd⟩
  · intro hnone
    obtain ⟨hsnd, hids, _, _, _⟩ :=
      move_stock_new_spec db fid lid m now fs hnd hfs hnl hnone
    exact ⟨hids, { fs with quantity := fs.quantity - m }, hsnd⟩

/-- Counterexample to claim C5 as stated: moving 3 seedlings from a lot of
8 to that lot's own location matches an "existing destination lot" — the
source row itself — and the transfer succeeds without creating a new row,
but the matched lot is not incremented: its quantity stays 8 instead of
becoming 11. -/
theorem move_stock_dest_upsert_cex :
    get_stock_by_id selfDB2 1 = some selfLot2 ∧ (0 : Int) < 3 ∧
    3 ≤ selfLot2.quantity ∧
    destLotQuery selfDB2 selfLot2.tree_type_id 1 = some selfLot2 ∧
    (move_stock_quantity selfDB2 1 1 3 0).2 = some (selfLot2, selfLot2) ∧
    selfLot2.quantity = 8 ∧ ¬ (selfLot2.quantity = selfLot2.quantity + 3) := by
  decide

theorem move_stock_dest_upsert_witness :
    WF wDB ∧ get_stock_by_id wDB 1 = some wLotA ∧ (0 : Int) < 4 ∧
    4 ≤ wLotA.quantity ∧
    (destLotQuery wDB wLotA.tree_type_id 2 = some wLotB ∧ wLotB.id ≠ 1 ∧
      (move_stock_quantity wDB 1 2 4 7).1.stocks.map (fun s => s.id)
          = wDB.stocks.map (fun s => s.id) ∧
      ∃ f' : Stock, (move_stock_quantity wDB 1 2 4 7).2
          = some (f', { wLotB with quantity := wLotB.quantity + 4 })) ∧
    (destLotQuery wDB wLotA.tree_type_id 3 = none ∧
      (move_stock_quantity wDB 1 3 4 7).1.stocks.map (fun s => s.id)
          = wDB.stocks.map (fun s => s.id) ++ [wDB.next_stock_id] ∧
      ∃ f' : Stock, (move_stock_quantity wDB 1 3 4 7).2
          = some (f', { id := wDB.next_stock_id, tree_type_id := wLotA.tree_type_id,
                        location_id := 3, quantity := 4, date_added := 7,
                        cost_per_seedling := wLotA.cost_per_seedling })) := by
  refine ⟨by decide, by decide, by decide, by decide, ?_, ?_⟩
  · refine ⟨by decide, by decide, ?_⟩
    exact (move_stock_dest_upsert wDB 1 2 4 7 wLotA (by decide) (by decide)
      (by decide) (by decide)).1 wLotB (by decide) (by decide)
  · refine ⟨by decide, ?_⟩
    exact (move_stock_dest_upsert wDB 1 3 4 7 wLotA (by decide) (by decide)
      (by decide) (by decide)).2 (by decide)

/-! ### Preservation of the table invariants by every ledger operation -/

lemma move_stock_existing_eq (db : DB) (fid lid : Nat) (m : Int) (now : Nat)
    (fs es : Stock) (hfs : get_stock_by_id db fid = some fs)
    (hnl : ¬ fs.quantity < m) (hes : destLotQuery db fs.tree_type_id lid = some es) :
    (move_stock_quantity db fid lid m now).1
      = { db with stocks := subQuantityById (addQuantityById db.stocks es.id m) fid m } := by
  unfold move_stock_quantity
  rw [hfs]
  dsimp only
  rw [if_neg hnl, hes]

lemma move_stock_new_eq (db : DB) (fid lid : Nat) (m : Int) (now : Nat)
    (fs : Stock) (hfs : get_stock_by_id db fid = some fs)
    (hnl : ¬ fs.quantity < m) (hnone : destLotQuery db fs.tree_type_id lid = none) :
    (move_stock_quantity db fid lid m now).1
      = { db with
            stocks := subQuantityById db.stocks fid m
              ++ [{ id := db.next_stock_id, tree_type_id := fs.tree_type_id,
                    location_id := lid, quantity := m, date_added := now,
                    cost_per_seedling := fs.cost_per_seedling }],
            next_stock_id := db.next_stock_id + 1 } := by
  unfold move_stock_quantity
  rw [hfs]
  dsimp only
  rw [if_neg hnl, hnone]

lemma update_stock_eq_of_missing (db : DB) (sid : Nat) (q : Int)
    (h : get_stock_by_id db sid = none) :
    update_stock_quantity db sid q = (db, none) := by
  unfold update_stock_quantity
  rw [h]

lemma update_stock_eq_of_found (db : DB) (sid : Nat) (q : Int) (fs : Stock)
    (h : get_stock_by_id db sid = some fs) :
    (update_stock_quantity db sid q).1
      = { db with stocks := db.stocks.map (fun s =>
          if s.id == sid then { s with quantity := q } else s) } := by
  unfold update_stock_quantity
  rw [h]

/-- A table whose key column gained no new entry keeps the `Nodup` and
upper-bound invariants. -/
lemma wf_of_ids_eq (db : DB) (stocks' : List Stock)
    (hids : stocks'.map (fun s => s.id) = db.stocks.map (fun s => s.id))
    (hnd : (db.stocks.map (fun s => s.id)).Nodup)
    (hbound : ∀ s ∈ db.stocks, s.id < db.next_stock_id) :
    (stocks'.map (fun s => s.id)).Nodup ∧
    ∀ s ∈ stocks', s.id < db.next_stock_id := by
  constructor
  · rw [hids]; exact hnd
  · intro s hs
    have : s.id ∈ db.stocks.map (fun u => u.id) := by
      rw [← hids]
      exact List.mem_map.mpr ⟨s, hs, rfl⟩
    obtain ⟨u, hu, huid⟩ := List.mem_map.mp this
    rw [← huid]
    exact hbound u hu

/-- Appending one fresh row with key `db.next_stock_id` keeps the key
column `Nodup` and bounded by `db.next_stock_id + 1`. -/
lemma wf_of_ids_snoc (db : DB) (stocks' : List Stock)
    (hids : stocks'.map (fun s => s.id)
        = db.stocks.map (fun s => s.id) ++ [db.next_stock_id])
    (hnd : (db.stocks.map (fun s => s.id)).Nodup)
    (hbound : ∀ s ∈ db.stocks, s.id < db.next_stock_id) :
    (stocks'.map (fun s => s.id)).Nodup ∧
    ∀ s ∈ stocks', s.id < db.next_stock_id + 1 := by
  constructor
  · rw [hids]
    rw [List.nodup_append]
    refine ⟨hnd, List.nodup_singleton _, ?_⟩
    intro x hx hx1
    obtain ⟨u, hu, huid⟩ := List.mem_map.mp hx
    rw [List.mem_singleton] at hx1
    have := hbound u hu
    omega
  · intro s hs
    have : s.id ∈ db.stocks.map (fun u => u.id) ++ [db.next_stock_id] := by
      rw [← hids]
      exact List.mem_map.mpr ⟨s, hs, rfl⟩
    rcases List.mem_append.mp this with hmem | hmem
    · obtain ⟨u, hu, huid⟩ := List.mem_map.mp hmem
      have := hbound u hu
      omega
    · rw [List.mem_singleton] at hmem
      omega

lemma ite_set_quantity_id (c : Prop) [Decidable c] (s : Stock) (z : Int) :
    (if c then { s with quantity := z } else s).id = s.id := by
  split <;> rfl

/-- One ledger operation keeps the store well-formed and never removes a
stock row: every primary key present before is present after. -/
lemma step_preserves {db db' : DB} (h : Step db db') (hwf : WF db) :
    WF db' ∧ ∀ s ∈ db.stocks, ∃ t ∈ db'.stocks, t.id = s.id := by
  obtain ⟨hnd, hbound, hpos⟩ := hwf
  cases h with
  | add tid lid q c now hq hc =>
    unfold add_stock_entry WF
    dsimp only
    refine ⟨⟨?_, ?_, ?_⟩, ?_⟩
    · rw [List.map_append, List.nodup_append]
      refine ⟨hnd, List.nodup_singleton _, ?_⟩
      intro x hx hx1
      obtain ⟨u, hu, huid⟩ := List.mem_map.mp hx
      simp only [List.map_cons, List.map_nil, List.mem_singleton] at hx1
      have := hbound u hu
      omega
    · intro s hs
      rcases List.mem_append.mp hs with hmem | hmem
      · have := hbound s hmem
        show s.id < db.next_stock_id + 1
        omega
      · rw [List.mem_singleton] at hmem
        subst hmem
        show db.next_stock_id < db.next_stock_id + 1
        omega
    · intro s hs
      rcases List.mem_append.mp hs with hmem | hmem
      · exact hpos s hmem
      · rw [List.mem_singleton] at hmem
        subst hmem
        exact hq.le
    · intro s hs
      exact ⟨s, List.mem_append_left _ hs, rfl⟩
  | update sid q hq =>
    cases hfind : get_stock_by_id db sid with
    | none =>
      rw [update_stock_eq_of_missing db sid q hfind]
      exact ⟨⟨hnd, hbound, hpos⟩, fun s hs => ⟨s, hs, rfl⟩⟩
    | some fs =>
      rw [update_stock_eq_of_found db sid q fs hfind]
      have hids : (db.stocks.map (fun s =>
            if s.id == sid then { s with quantity := q } else s)).map (fun s => s.id)
          = db.stocks.map (fun s => s.id) :=
        map_id_of_id_preserving _ (fun s => by split <;> rfl) _
      obtain ⟨hnd', hbound'⟩ := wf_of_ids_eq db _ hids hnd hbound
      refine ⟨⟨hnd', hbound', ?_⟩, ?_⟩
      · intro t ht
        obtain ⟨s, hs, rfl⟩ := List.mem_map.mp ht
        by_cases hc : (s.id == sid) = true
        · simp only [hc, if_true]
          exact hq
        · simp only [hc, if_false]
          exact hpos s hs
      · intro s hs
        exact ⟨_, List.mem_map.mpr ⟨s, hs, rfl⟩, ite_set_quantity_id _ s q⟩
  | move fid lid m now hm =>
    cases hfind : get_stock_by_id db fid with
    | none =>
      rw [show (move_stock_quantity db fid lid m now).1 = db by
        rw [move_stock_eq_of_no_source db fid lid m now hfind]]
      exact ⟨⟨hnd, hbound, hpos⟩, fun s hs => ⟨s, hs, rfl⟩⟩
    | some fs =>
      obtain ⟨hfsmem, hfsid⟩ := get_stock_by_id_spec db fid fs hfind
      by_cases hins : fs.quantity < m
      · rw [show (move_stock_quantity db fid lid m now).1 = db by
          rw [move_stock_eq_of_insufficient db fid lid m now fs hfind hins]]
        exact ⟨⟨hnd, hbound, hpos⟩, fun s hs => ⟨s, hs, rfl⟩⟩
      · cases hdest : destLotQuery db fs.tree_type_id lid with
        | some es =>
          rw [move_stock_existing_eq db fid lid m now fs es hfind hins hdest]
          have hids : ((subQuantityById (addQuantityById db.stocks es.id m) fid m).map
              (fun s => s.id)) = db.stocks.map (fun s => s.id) := by
            rw [subQuantityById_map_id, addQuantityById_map_id]
          obtain ⟨hnd', hbound'⟩ := wf_of_ids_eq db _ hids hnd hbound
          refine ⟨⟨hnd', hbound', ?_⟩, ?_⟩
          · intro t ht
            unfold subQuantityById at ht
            obtain ⟨u, hu, rfl⟩ := List.mem_map.mp ht
            unfold addQuantityById at hu
            obtain ⟨s, hs, rfl⟩ := List.mem_map.mp hu
            by_cases hsid : s.id = fid
            · have hsfs : s = fs := eq_of_mem_of_id_eq hnd hs hfsmem (by rw [hsid, hfsid])
              subst hsfs
              by_cases hfes : s.id = es.id
              · have h1 : (s.id == es.id) = true := by simp [hfes]
                have h2 : (s.id == fid) = true := by simp [hsid]
                simp only [h1, if_true, h2]
                have := hpos s hs
                omega
              · have h1 : (s.id == es.id) = false := by simp [hfes]
                have h2 : (s.id == fid) = true := by simp [hsid]
                simp only [h1, Bool.false_eq_true, if_false, h2, if_true]
                omega
            · have h2 : (s.id == fid) = false := by simp [hsid]
              by_cases hfes : s.id = es.id
              · have h1 : (s.id == es.id) = true := by simp [hfes]
                have h2' : (({ s with quantity := s.quantity + m } : Stock).id == fid)
                    = false := by simp [hsid]
                simp only [h1, if_true, h2', Bool.false_eq_true, if_false]
                have := hpos s hs
                omega
              · have h1 : (s.id == es.id) = false := by simp [hfes]
                simp only [h1, Bool.false_eq_true, if_false, h2]
                exact hpos s hs
          · intro s hs
            refine ⟨_, List.mem_map.mpr ⟨(fun u : Stock =>
              if u.id == es.id then { u with quantity := u.quantity + m } else u) s,
              List.mem_map.mpr ⟨s, hs, rfl⟩, rfl⟩, ?_⟩
            exact (ite_set_quantity_id _ _ _).trans (ite_set_quantity_id _ s (s.quantity + m))
        | none =>
          rw [move_stock_new_eq db fid lid m now fs hfind hins hdest]
          have hids : ((subQuantityById db.stocks fid m
              ++ [({ id := db.next_stock_id, tree_type_id := fs.tree_type_id,
                     location_id := lid, quantity := m, date_added := now,
                     cost_per_seedling := fs.cost_per_seedling } : Stock)]).map (fun s => s.id))
              = db.stocks.map (fun s => s.id) ++ [db.next_stock_id] := by
            rw [List.map_append, subQuantityById_map_id]
            rfl
          obtain ⟨hnd', hbound'⟩ := wf_of_ids_snoc db _ hids hnd hbound
          refine ⟨⟨hnd', hbound', ?_⟩, ?_⟩
          · intro t ht
            rcases List.mem_append.mp ht with hmem | hmem
            · unfold subQuantityById at hmem
              obtain ⟨s, hs, rfl⟩ := List.mem_map.mp hmem
              by_cases hsid : s.id = fid
              · have hsfs : s = fs := eq_of_mem_of_id_eq hnd hs hfsmem (by rw [hsid, hfsid])
                subst hsfs
                have h2 : (s.id == fid) = true := by simp [hsid]
                simp only [h2, if_true]
                omega
              · have h2 : (s.id == fid) = false := by simp [hsid]
                simp only [h2, Bool.false_eq_true, if_false]
                exact hpos s hs
            · rw [List.mem_singleton] at hmem
              subst hmem
              exact hm.le
          · intro s hs
            refine ⟨_, List.mem_append_left _ (List.mem_map.mpr ⟨s, hs, rfl⟩), ?_⟩
            exact ite_set_quantity_id _ s (s.quantity - m)
  | sale tid q now hq =>
    cases htt : get_tree_type_by_id db tid with
    | none =>
      rw [show (record_sale db tid q now).1 = db by
        rw [record_sale_eq_of_no_type db tid q now htt]]
      exact ⟨⟨hnd, hbound, hpos⟩, fun s hs => ⟨s, hs, rfl⟩⟩
    | some tt =>
      by_cases hlt : totalAvailableQuantity db tid < q
      · rw [show (record_sale db tid q now).1 = db by
          rw [record_sale_eq_of_insufficient db tid q now hlt]]
        exact ⟨⟨hnd, hbound, hpos⟩, fun s hs => ⟨s, hs, rfl⟩⟩
      · rw [record_sale_success db tid q now tt htt (not_lt.mp hlt)]
        have hids : ((overwriteById db.stocks
            (consumeLots q (availableStockEntries db tid))).map (fun s => s.id))
            = db.stocks.map (fun s => s.id) := overwriteById_map_id _ _
        obtain ⟨hnd', hbound'⟩ := wf_of_ids_eq db _ hids hnd hbound
        have availNonneg : ∀ s ∈ availableStockEntries db tid, 0 ≤ s.quantity :=
          fun s hs => le_of_lt (mem_availableStockEntries.mp hs).2.2
        have h₂ := consumeLots_forall₂ q (availableStockEntries db tid) availNonneg
        refine ⟨⟨hnd', hbound', ?_⟩, ?_⟩
        · intro t ht
          obtain ⟨s, hs, _, hcase⟩ := overwriteById_mem _ _ t ht
          rcases hcase with heq | hout
          · rw [heq]
            exact hpos s hs
          · obtain ⟨a, _, haR⟩ := forall₂_mem_right h₂ t hout
            exact haR.2.2.2
        · intro s hs
          exact ⟨_, List.mem_map.mpr ⟨s, hs, rfl⟩, overwriteById_id_preserve _ s⟩

/-- Any reachable store stays well-formed, and every stock row present at
the start is still present (by primary key). -/
lemma reachable_preserves {db db' : DB} (hwf : WF db) (hr : Reachable db db') :
    WF db' ∧ ∀ s ∈ db.stocks, ∃ t ∈ db'.stocks, t.id = s.id := by
  induction hr with
  | refl => exact ⟨hwf, fun s hs => ⟨s, hs, rfl⟩⟩
  | tail hab hstep ih =>
    obtain ⟨hwfb, hretb⟩ := ih
    obtain ⟨hwfc, hretc⟩ := step_preserves hstep hwfb
    refine ⟨hwfc, ?_⟩
    intro s hs
    obtain ⟨t, ht, hts⟩ := hretb s hs
    obtain ⟨u, hu, hut⟩ := hretc t ht
    exact ⟨u, hu, hut.trans hts⟩

/-- Claim C7: starting from a well-formed store, in every state reachable
by the ledger operations under their stated preconditions every stock
lot's quantity is at least 0, and no lot row is ever deleted — every
primary key present at the start is still present, even when its quantity
has reached zero. -/
theorem stock_rows_invariant (db db' : DB) (hwf : WF db) (hr : Reachable db db') :
    (∀ s ∈ db'.stocks, 0 ≤ s.quantity) ∧
    (∀ s ∈ db.stocks, ∃ t ∈ db'.stocks, t.id = s.id) := by
  obtain ⟨hwf', hret⟩ := reachable_preserves hwf hr
  exact ⟨hwf'.2.2, hret⟩

theorem stock_rows_invariant_witness :
    WF wDB ∧
    ((∀ s ∈ (record_sale (add_stock_entry wDB 1 1 4 0 9).1 1 12 50).1.stocks,
        0 ≤ s.quantity) ∧
     (∀ s ∈ wDB.stocks,
        ∃ t ∈ (record_sale (add_stock_entry wDB 1 1 4 0 9).1 1 12 50).1.stocks,
          t.id = s.id)) :=
  ⟨by decide,
   stock_rows_invariant wDB (record_sale (add_stock_entry wDB 1 1 4 0 9).1 1 12 50).1
     (by decide)
     (Relation.ReflTransGen.tail
       (Relation.ReflTransGen.single (Step.add wDB 1 1 4 0 9 (by decide) (by decide)))
       (Step.sale (add_stock_entry wDB 1 1 4 0 9).1 1 12 50 (by decide)))⟩

end GreenGrow
